import Mathlib

/-!
Verification of the PyRT ROM-retargeting tool, following the Python sources
(`pyrt/__init__.py` and the table-codec modules). The definitions below are
shallow embeddings of the Python classes and functions: Python `int` becomes
`Int` (or `Nat` for byte values and lengths), byte buffers become `List Nat`,
fallible code (assertions, uncaught `IndexError`) returns `Option`, and the
statements proved about them are the documented properties of the allocator,
the reallocation engine, the lookup helpers, the module registrar and the
scene-header walker.
-/

namespace PyRT

/-- Length `end - start` of a half-open `(start, end)` range, the quantity the
Python code computes as `end - start` throughout. -/
def rlen (r : Int × Int) : Int := r.2 - r.1

/-- Loop body of `Ranges.add_range` (pyrt/__init__.py lines 53-62): starting at
the bisection index, ranges are popped and merged into the accumulating
`(add_start, add_end)` while they are not strictly beyond `add_end`
(`if add_end < start: break`), widening `add_start` down (`if add_start > start`)
and `add_end` up (`if add_end < end`); finally the merged range is inserted. -/
def addRangeLoop (a b : Int) : List (Int × Int) → List (Int × Int)
  | [] => [(a, b)]
  | (s, e) :: rest =>
    if b < s then (a, b) :: (s, e) :: rest
    else addRangeLoop (min a s) (max b e) rest

/-- Embeds `Ranges.add_range` (pyrt/__init__.py lines 47-62).
`bisect.bisect_left([end for start, end in ranges], add_start)` over the
ascending list of range ends (`Ranges.__init__` documents the maintained order
`ranges[i] start < ranges[i] end < ranges[i+1] start`) is the length of the
longest prefix whose ends are `< add_start`; when every end is `≥ add_start`
the binary search returns `0` even on an unsorted list, which the prefix model
also does. -/
def add_range (ranges : List (Int × Int)) (a b : Int) : List (Int × Int) :=
  ranges.takeWhile (fun r => r.2 < a) ++ addRangeLoop a b (ranges.dropWhile (fun r => r.2 < a))

/-- Well-formedness of a range list relative to a strict lower bound `lo`:
`lo < s₁ < e₁ < s₂ < e₂ < ...`, i.e. the list is sorted by position with
pairwise disjoint, non-touching, non-empty ranges. -/
def rangesLB (lo : Int) : List (Int × Int) → Bool
  | [] => true
  | (s, e) :: rest => decide (lo < s) && decide (s < e) && rangesLB e rest

/-- The `Ranges` class invariant, as documented in `Ranges.__init__`:
`ranges[i] start < ranges[i] end < ranges[i+1] start`. -/
def rangesWF : List (Int × Int) → Bool
  | [] => true
  | (s, e) :: rest => decide (s < e) && rangesLB e rest

theorem add_range_cons_lt {s e a b : Int} (h : e < a) (rest : List (Int × Int)) :
    add_range ((s, e) :: rest) a b = (s, e) :: add_range rest a b := by
  simp [add_range, List.takeWhile_cons, List.dropWhile_cons, h]

theorem add_range_cons_ge {s e a b : Int} (h : ¬ e < a) (rest : List (Int × Int)) :
    add_range ((s, e) :: rest) a b = addRangeLoop a b ((s, e) :: rest) := by
  simp [add_range, List.takeWhile_cons, List.dropWhile_cons, h]

theorem add_range_nil (a b : Int) : add_range [] a b = [(a, b)] := rfl

theorem rangesLB_mono {lo lo₂ : Int} {l : List (Int × Int)} (h : lo₂ ≤ lo)
    (hl : rangesLB lo l = true) : rangesLB lo₂ l = true := by
  cases l with
  | nil => rfl
  | cons r rest =>
    obtain ⟨s, e⟩ := r
    simp only [rangesLB, Bool.and_eq_true, decide_eq_true_eq] at hl ⊢
    exact ⟨⟨by omega, hl.1.2⟩, hl.2⟩

theorem rangesWF_of_rangesLB {lo : Int} {l : List (Int × Int)}
    (hl : rangesLB lo l = true) : rangesWF l = true := by
  cases l with
  | nil => rfl
  | cons r rest =>
    obtain ⟨s, e⟩ := r
    simp only [rangesLB, Bool.and_eq_true, decide_eq_true_eq] at hl
    simp only [rangesWF, Bool.and_eq_true, decide_eq_true_eq]
    exact ⟨hl.1.2, hl.2⟩

theorem addRangeLoop_LB (l : List (Int × Int)) : ∀ (a b lo : Int), a < b → lo < a →
    rangesLB lo l = true → rangesLB lo (addRangeLoop a b l) = true := by
  induction l with
  | nil =>
    intro a b lo hab hloa _
    simp only [addRangeLoop, rangesLB, Bool.and_eq_true, decide_eq_true_eq]
    exact ⟨⟨hloa, hab⟩, trivial⟩
  | cons r rest ih =>
    intro a b lo hab hloa hl
    obtain ⟨s, e⟩ := r
    simp only [rangesLB, Bool.and_eq_true, decide_eq_true_eq] at hl
    obtain ⟨⟨hlos, hse⟩, hrest⟩ := hl
    by_cases hbs : b < s
    · simp only [addRangeLoop, if_pos hbs]
      simp only [rangesLB, Bool.and_eq_true, decide_eq_true_eq]
      exact ⟨⟨hloa, hab⟩, ⟨hbs, hse⟩, hrest⟩
    · simp only [addRangeLoop, if_neg hbs]
      exact ih (min a s) (max b e) lo (by omega) (by omega)
        (rangesLB_mono (by omega) hrest)

theorem add_range_LB (l : List (Int × Int)) : ∀ (a b lo : Int), a < b → lo < a →
    rangesLB lo l = true → rangesLB lo (add_range l a b) = true := by
  induction l with
  | nil =>
    intro a b lo hab hloa _
    simp only [add_range, List.takeWhile_nil, List.dropWhile_nil, List.nil_append]
    exact addRangeLoop_LB [] a b lo hab hloa rfl
  | cons r rest ih =>
    intro a b lo hab hloa hl
    obtain ⟨s, e⟩ := r
    simp only [rangesLB, Bool.and_eq_true, decide_eq_true_eq] at hl
    obtain ⟨⟨hlos, hse⟩, hrest⟩ := hl
    by_cases hea : e < a
    · rw [add_range_cons_lt hea]
      simp only [rangesLB, Bool.and_eq_true, decide_eq_true_eq]
      exact ⟨⟨hlos, hse⟩, ih a b e hab hea hrest⟩
    · rw [add_range_cons_ge hea]
      exact addRangeLoop_LB ((s, e) :: rest) a b lo hab hloa
        (by simp only [rangesLB, Bool.and_eq_true, decide_eq_true_eq]
            exact ⟨⟨hlos, hse⟩, hrest⟩)

theorem add_range_WF {l : List (Int × Int)} {a b : Int} (hab : a < b)
    (hl : rangesWF l = true) : rangesWF (add_range l a b) = true := by
  cases l with
  | nil =>
    exact rangesWF_of_rangesLB (add_range_LB [] a b (a - 1) hab (by omega) rfl)
  | cons r rest =>
    obtain ⟨s, e⟩ := r
    simp only [rangesWF, Bool.and_eq_true, decide_eq_true_eq] at hl
    have hlb : rangesLB (min a s - 1) ((s, e) :: rest) = true := by
      simp only [rangesLB, Bool.and_eq_true, decide_eq_true_eq]
      exact ⟨⟨by omega, hl.1⟩, hl.2⟩
    exact rangesWF_of_rangesLB
      (add_range_LB ((s, e) :: rest) a b (min a s - 1) hab (by omega) hlb)

/-- C2. For every sequence of `Ranges.add_range` calls with `start < end`
applied to an initially empty list, the result satisfies the documented
`Ranges` invariant (sorted by position, ranges pairwise disjoint and
non-touching); and freeing `[a,b)` then `[b,c)`, in either order, yields
exactly the single range `[a,c)`. -/
theorem add_range_invariant_and_coalesce :
    (∀ ops : List (Int × Int), (∀ p ∈ ops, p.1 < p.2) →
      rangesWF (ops.foldl (fun l p => add_range l p.1 p.2) []) = true) ∧
    (∀ a b c : Int, a < b → b < c →
      add_range (add_range [] a b) b c = [(a, c)] ∧
      add_range (add_range [] b c) a b = [(a, c)]) := by
  constructor
  · intro ops hops
    suffices h : ∀ (ops : List (Int × Int)) (l : List (Int × Int)),
        (∀ p ∈ ops, p.1 < p.2) → rangesWF l = true →
        rangesWF (ops.foldl (fun l p => add_range l p.1 p.2) l) = true by
      exact h ops [] hops rfl
    intro ops
    induction ops with
    | nil => intro l _ hl; exact hl
    | cons p rest ih =>
      intro l hops hl
      exact ih (add_range l p.1 p.2)
        (fun q hq => hops q (List.mem_cons_of_mem p hq))
        (add_range_WF (hops p (List.mem_cons_self p rest)) hl)
  · intro a b c hab hbc
    constructor
    · rw [add_range_nil, add_range_cons_ge (by omega)]
      simp only [addRangeLoop, if_neg (show ¬ (c < a) by omega),
        min_eq_right (le_of_lt hab), max_eq_left (le_of_lt hbc)]
    · rw [add_range_nil, add_range_cons_ge (by omega)]
      simp only [addRangeLoop, if_neg (show ¬ ((b : Int) < b) by omega),
        min_eq_left (le_of_lt hab), max_eq_right (le_of_lt hbc)]

/-- Concrete instance of `add_range_invariant_and_coalesce`: freeing
`[0,5)`, `[8,10)`, `[5,8)` in that order leaves a well-formed list, and the
coalescing equations hold at `0 < 5 < 9`. -/
theorem add_range_invariant_and_coalesce_witness :
    rangesWF ([((0 : Int), (5 : Int)), (8, 10), (5, 8)].foldl
      (fun l p => add_range l p.1 p.2) []) = true ∧
    add_range (add_range [] 0 5) 5 9 = [(0, 9)] ∧
    add_range (add_range [] 5 9) 0 5 = [(0, 9)] :=
  ⟨add_range_invariant_and_coalesce.1 [(0, 5), (8, 10), (5, 8)] (by decide),
   (add_range_invariant_and_coalesce.2 0 5 9 (by decide) (by decide)).1,
   (add_range_invariant_and_coalesce.2 0 5 9 (by decide) (by decide)).2⟩

/-- Insertion step of a stable sort: `x` is placed before the first element `y`
with `le x y`, so elements comparing equal to `x` that were already present
stay in front of it. -/
def insertStable {α : Type} (le : α → α → Bool) (x : α) : List α → List α
  | [] => [x]
  | y :: ys => if le x y then x :: y :: ys else y :: insertStable le x ys

/-- Stable insertion sort. Python `list.sort` is a stable sort, and for a total
comparison all stable sorts of a list agree, so this models `list.sort`
exactly. -/
def stableSort {α : Type} (le : α → α → Bool) : List α → List α
  | [] => []
  | x :: xs => insertStable le x (stableSort le xs)

theorem insertStable_perm {α : Type} (le : α → α → Bool) (x : α) (l : List α) :
    (insertStable le x l).Perm (x :: l) := by
  induction l with
  | nil => exact List.Perm.refl _
  | cons y ys ih =>
    by_cases h : le x y = true
    · simp only [insertStable, if_pos h]
      exact List.Perm.refl _
    · simp only [insertStable, if_neg h]
      exact (List.Perm.cons y ih).trans (List.Perm.swap x y ys)

theorem stableSort_perm {α : Type} (le : α → α → Bool) (l : List α) :
    (stableSort le l).Perm l := by
  induction l with
  | nil => exact List.Perm.refl _
  | cons x xs ih =>
    exact (insertStable_perm le x (stableSort le xs)).trans (List.Perm.cons x ih)

theorem insertStable_pairwise {α : Type} {le : α → α → Bool}
    (htrans : ∀ a b c, le a b = true → le b c = true → le a c = true)
    (htotal : ∀ a b, le a b = true ∨ le b a = true)
    {l : List α} (x : α) (hl : l.Pairwise (fun a b => le a b = true)) :
    (insertStable le x l).Pairwise (fun a b => le a b = true) := by
  induction l with
  | nil => simp [insertStable]
  | cons y ys ih =>
    rw [List.pairwise_cons] at hl
    by_cases h : le x y = true
    · simp only [insertStable, if_pos h]
      refine List.Pairwise.cons ?_ (List.Pairwise.cons hl.1 hl.2)
      intro z hz
      rcases List.mem_cons.mp hz with hz | hz
      · exact hz ▸ h
      · exact htrans x y z h (hl.1 z hz)
    · simp only [insertStable, if_neg h]
      refine List.Pairwise.cons ?_ (ih hl.2)
      intro z hz
      rcases List.mem_cons.mp ((insertStable_perm le x ys).mem_iff.mp hz) with hz | hz
      · subst hz
        rcases htotal z y with hxy | hyx
        · exact absurd hxy h
        · exact hyx
      · exact hl.1 z hz

theorem stableSort_pairwise {α : Type} {le : α → α → Bool}
    (htrans : ∀ a b c, le a b = true → le b c = true → le a c = true)
    (htotal : ∀ a b, le a b = true ∨ le b a = true) (l : List α) :
    (stableSort le l).Pairwise (fun a b => le a b = true) := by
  induction l with
  | nil => simp [stableSort]
  | cons x xs ih => exact insertStable_pairwise htrans htotal x ih

theorem dropWhile_head_false {α : Type} {p : α → Bool} {l : List α} {x : α}
    {xs : List α} (h : l.dropWhile p = x :: xs) : p x = false := by
  induction l with
  | nil => simp at h
  | cons y ys ih =>
    rw [List.dropWhile_cons] at h
    by_cases hy : p y = true
    · rw [if_pos hy] at h
      exact ih h
    · rw [if_neg hy] at h
      cases h
      exact Bool.not_eq_true _ ▸ hy

/-- Comparison used by `RangesAscendingLength.__init__`:
`self.ranges.sort(key=lambda range_limits: range_limits[1] - range_limits[0])`
sorts by ascending range length. -/
def lenLE (r r₂ : Int × Int) : Bool := decide (rlen r ≤ rlen r₂)

/-- Embeds the in-place `sort` of `RangesAscendingLength.__init__`
(pyrt/__init__.py lines 118-124). -/
def sortByLength (l : List (Int × Int)) : List (Int × Int) := stableSort lenLE l

/-- The `RangesAscendingLength` invariant: the list is sorted by ascending
range length (the docstring of `find_and_exclude_range` states that it
maintains this order). -/
def LenSorted (l : List (Int × Int)) : Prop :=
  l.Pairwise (fun r r₂ => rlen r ≤ rlen r₂)

instance (l : List (Int × Int)) : Decidable (LenSorted l) := by
  unfold LenSorted
  infer_instance

/-- Insertion at the `bisect.bisect_left([end - start for start, end in ranges],
remain_length)` position (pyrt/__init__.py lines 144-148): before the first
range whose length is not smaller. -/
def insertByLength (r : Int × Int) (l : List (Int × Int)) : List (Int × Int) :=
  l.takeWhile (fun x => rlen x < rlen r) ++ r :: l.dropWhile (fun x => rlen x < rlen r)

/-- Embeds `RangesAscendingLength.find_and_exclude_range` (pyrt/__init__.py
lines 126-150). `bisect.bisect_left` over the ascending lengths is the length
of the longest prefix of ranges shorter than the requested length; when that
index equals `len(ranges)`, `ranges.pop(i)` raises `IndexError`, modeled as
`none`. Otherwise the popped range `(start, end)` yields the result
`(start, start + length)`, and the remainder `(start + length, end)` is
reinserted at its `bisect_left` position when its length is nonzero. -/
def find_and_exclude_range (ranges : List (Int × Int)) (length : Int) :
    Option ((Int × Int) × List (Int × Int)) :=
  match ranges.dropWhile (fun r => rlen r < length) with
  | [] => none
  | (s, e) :: post =>
    let rest := ranges.takeWhile (fun r => rlen r < length) ++ post
    if rlen (s + length, e) ≠ 0 then
      some ((s, s + length), insertByLength (s + length, e) rest)
    else
      some ((s, s + length), rest)

theorem find_and_exclude_range_len {ranges : List (Int × Int)} {length s e : Int}
    {rest : List (Int × Int)}
    (h : find_and_exclude_range ranges length = some ((s, e), rest)) :
    e = s + length := by
  unfold find_and_exclude_range at h
  rcases hdrop : ranges.dropWhile (fun r => rlen r < length) with _ | ⟨⟨s₀, e₀⟩, post⟩
  · rw [hdrop] at h
    simp at h
  · rw [hdrop] at h
    dsimp only at h
    split at h <;>
      (simp only [Option.some.injEq, Prod.mk.injEq] at h; omega)

theorem lenLE_trans (a b c : Int × Int) (h₁ : lenLE a b = true)
    (h₂ : lenLE b c = true) : lenLE a c = true := by
  simp only [lenLE, decide_eq_true_eq] at h₁ h₂ ⊢
  omega

theorem lenLE_total (a b : Int × Int) : lenLE a b = true ∨ lenLE b a = true := by
  simp only [lenLE, decide_eq_true_eq]
  omega

theorem sortByLength_sorted (l : List (Int × Int)) : LenSorted (sortByLength l) :=
  (stableSort_pairwise lenLE_trans lenLE_total l).imp
    (fun h => by simpa [lenLE] using h)

theorem mem_dropWhile_lenLB {l : List (Int × Int)} {c : Int} (hs : LenSorted l) :
    ∀ y ∈ l.dropWhile (fun x => decide (rlen x < c)), c ≤ rlen y := by
  rcases hdrop : l.dropWhile (fun x => decide (rlen x < c)) with _ | ⟨y₀, ys⟩
  · intro y hy
    simp at hy
  · have hhead : c ≤ rlen y₀ := by
      have := dropWhile_head_false hdrop
      simp only [decide_eq_false_iff_not] at this
      omega
    have hpair : List.Pairwise (fun r r₂ => rlen r ≤ rlen r₂) (y₀ :: ys) :=
      hdrop ▸ List.Pairwise.sublist (List.dropWhile_sublist _) hs
    intro y hy
    rcases List.mem_cons.mp hy with hy | hy
    · exact hy ▸ hhead
    · exact le_trans hhead (List.rel_of_pairwise_cons hpair hy)

theorem insertByLength_sorted {r : Int × Int} {l : List (Int × Int)}
    (hs : LenSorted l) : LenSorted (insertByLength r l) := by
  unfold insertByLength LenSorted
  rw [List.pairwise_append]
  refine ⟨List.Pairwise.sublist (List.takeWhile_sublist _) hs, ?_, ?_⟩
  · rw [List.pairwise_cons]
    exact ⟨fun y hy => mem_dropWhile_lenLB hs y hy,
      List.Pairwise.sublist (List.dropWhile_sublist _) hs⟩
  · intro x hx y hy
    have hxr : rlen x < rlen r := by
      have := List.mem_takeWhile_imp hx
      simpa using this
    rcases List.mem_cons.mp hy with hy | hy
    · subst hy
      omega
    · have := mem_dropWhile_lenLB hs y hy
      omega

theorem insertByLength_perm (r : Int × Int) (l : List (Int × Int)) :
    (insertByLength r l).Perm (r :: l) := by
  unfold insertByLength
  have h : (List.takeWhile (fun x => decide (rlen x < rlen r)) l ++
      r :: List.dropWhile (fun x => decide (rlen x < rlen r)) l).Perm
      (r :: (List.takeWhile (fun x => decide (rlen x < rlen r)) l ++
        List.dropWhile (fun x => decide (rlen x < rlen r)) l)) := List.perm_middle
  rw [List.takeWhile_append_dropWhile] at h
  exact h

/-- C1. The `RangesAscendingLength` constructor sorts any range list by
ascending length; then `find_and_exclude_range(length)`, on a list sorted by
ascending length, removes a shortest free range `(s, e)` among those of length
`≥ length` and returns `(s, s + length)`, reinserts the nonempty remainder
`(s + length, e)` keeping the list sorted by ascending length, and fails (the
`ranges.pop(i)` raises `IndexError` — there is no tail boundary to fall back
to) exactly when every free range is shorter than `length`. -/
theorem find_and_exclude_range_spec :
    (∀ l, LenSorted (sortByLength l)) ∧
    (∀ ranges length, LenSorted ranges →
      ((∀ r ∈ ranges, rlen r < length) →
        find_and_exclude_range ranges length = none) ∧
      ((∃ r ∈ ranges, length ≤ rlen r) →
        ∃ s e pre post rest,
          ranges = pre ++ (s, e) :: post ∧
          find_and_exclude_range ranges length = some ((s, s + length), rest) ∧
          length ≤ e - s ∧
          (∀ r ∈ ranges, length ≤ rlen r → e - s ≤ rlen r) ∧
          rest.Perm (pre ++ post ++
            (if s + length = e then [] else [(s + length, e)])) ∧
          LenSorted rest)) := by
  refine ⟨sortByLength_sorted, ?_⟩
  intro ranges length hsorted
  constructor
  · intro hall
    have hnil : ranges.dropWhile (fun r => decide (rlen r < length)) = [] :=
      List.dropWhile_eq_nil_iff.mpr (fun x hx => decide_eq_true (hall x hx))
    unfold find_and_exclude_range
    rw [hnil]
  · intro hex
    rcases hdrop : ranges.dropWhile (fun r => decide (rlen r < length)) with
      _ | ⟨⟨s, e⟩, post⟩
    · exfalso
      obtain ⟨r₀, hr₀mem, hr₀len⟩ := hex
      have := List.dropWhile_eq_nil_iff.mp hdrop r₀ hr₀mem
      simp only [decide_eq_true_eq] at this
      omega
    · have hsplit : ranges =
          ranges.takeWhile (fun r => decide (rlen r < length)) ++ (s, e) :: post := by
        conv_lhs => rw [← List.takeWhile_append_dropWhile
          (fun r => decide (rlen r < length)) ranges]
        rw [hdrop]
      have hheadlen : length ≤ e - s := by
        have := dropWhile_head_false hdrop
        simp only [decide_eq_false_iff_not, rlen] at this
        omega
      have hrestsorted :
          LenSorted (ranges.takeWhile (fun r => decide (rlen r < length)) ++ post) := by
        have hsub : (ranges.takeWhile (fun r => decide (rlen r < length)) ++ post).Sublist
            (ranges.takeWhile (fun r => decide (rlen r < length)) ++ (s, e) :: post) :=
          List.Sublist.append_left (List.sublist_cons_self _ _) _
        exact List.Pairwise.sublist hsub (hsplit ▸ hsorted)
      have hmin : ∀ r ∈ ranges, length ≤ rlen r → e - s ≤ rlen r := by
        intro r hrmem hrlen
        rw [hsplit] at hrmem
        rcases List.mem_append.mp hrmem with hr | hr
        · have := List.mem_takeWhile_imp hr
          simp only [decide_eq_true_eq] at this
          omega
        · rcases List.mem_cons.mp hr with hr | hr
          · rw [hr]
            simp [rlen]
          · have hpair : List.Pairwise (fun r r₂ => rlen r ≤ rlen r₂) ((s, e) :: post) :=
              hdrop ▸ List.Pairwise.sublist (List.dropWhile_sublist _) hsorted
            have := List.rel_of_pairwise_cons hpair hr
            simp only [rlen] at this ⊢
            omega
      by_cases hrem : s + length = e
      · refine ⟨s, e, ranges.takeWhile (fun r => decide (rlen r < length)), post,
          ranges.takeWhile (fun r => decide (rlen r < length)) ++ post,
          hsplit, ?_, hheadlen, hmin, ?_, hrestsorted⟩
        · unfold find_and_exclude_range
          rw [hdrop]
          dsimp only
          rw [if_neg (by simp [rlen]; omega)]
        · rw [if_pos hrem, List.append_nil]
      · refine ⟨s, e, ranges.takeWhile (fun r => decide (rlen r < length)), post,
          insertByLength (s + length, e)
            (ranges.takeWhile (fun r => decide (rlen r < length)) ++ post),
          hsplit, ?_, hheadlen, hmin, ?_, insertByLength_sorted hrestsorted⟩
        · unfold find_and_exclude_range
          rw [hdrop]
          dsimp only
          rw [if_pos (by simp [rlen]; omega)]
        · rw [if_neg hrem]
          exact (insertByLength_perm _ _).trans (List.perm_append_singleton _ _).symm

/-- Concrete instance of `find_and_exclude_range_spec`: on the length-sorted
list `[(0,5), (2,10)]`, requesting length 3 succeeds (the theorem produces the
existence of the split), and requesting length 99 returns `none`. -/
theorem find_and_exclude_range_spec_witness :
    (∃ s e pre post rest,
      ([((0 : Int), (5 : Int)), (2, 10)] : List (Int × Int)) = pre ++ (s, e) :: post ∧
      find_and_exclude_range [(0, 5), (2, 10)] 3 = some ((s, s + 3), rest) ∧
      (3 : Int) ≤ e - s ∧
      (∀ r ∈ ([((0 : Int), (5 : Int)), (2, 10)] : List (Int × Int)),
        3 ≤ rlen r → e - s ≤ rlen r) ∧
      rest.Perm (pre ++ post ++ (if s + 3 = e then [] else [(s + 3, e)])) ∧
      LenSorted rest) ∧
    find_and_exclude_range [((0 : Int), (5 : Int)), (2, 10)] 99 = none :=
  ⟨((find_and_exclude_range_spec.2 [(0, 5), (2, 10)] 3 (by decide)).2
      ⟨(0, 5), by decide, by decide⟩),
   ((find_and_exclude_range_spec.2 [(0, 5), (2, 10)] 99 (by decide)).1 (by decide))⟩

/-- Loop of `Ranges.exclude_range` (pyrt/__init__.py lines 70-107), processing
the ranges from the bisection index onward: stop when the range starts at or
after `exclude_end`; drop ranges completely covered; split a range containing
the excluded span into up to two remainders; trim a range overlapped on its
right or left; any other overlap shape raises
`AssertionError("disjointed: ...")`, modeled as `none`. -/
def excludeLoop (a b : Int) : List (Int × Int) → Option (List (Int × Int))
  | [] => some []
  | (s, e) :: rest =>
    if b ≤ s then some ((s, e) :: rest)
    else if a ≤ s ∧ b ≥ e then excludeLoop a b rest
    else if a ≥ s ∧ b ≤ e then
      match excludeLoop a b rest with
      | none => none
      | some tail =>
        some ((if s ≠ a then [(s, a)] else []) ++
          (if b ≠ e then [(b, e)] else []) ++ tail)
    else if a ≥ s ∧ a < e then
      match excludeLoop a b rest with
      | none => none
      | some tail => some ((if s ≠ a then [(s, a)] else []) ++ tail)
    else if b > s ∧ b ≤ e then
      match excludeLoop a b rest with
      | none => none
      | some tail => some ((if b ≠ e then [(b, e)] else []) ++ tail)
    else none

/-- Embeds `Ranges.exclude_range` (pyrt/__init__.py lines 64-107).
`bisect.bisect_right([end for start, end in ranges], exclude_start)` over the
ascending ends is the length of the longest prefix whose ends are
`≤ exclude_start`; that prefix is left untouched and the loop processes the
remainder. -/
def exclude_range (ranges : List (Int × Int)) (a b : Int) :
    Option (List (Int × Int)) :=
  match excludeLoop a b (ranges.dropWhile (fun r => r.2 ≤ a)) with
  | none => none
  | some tail => some (ranges.takeWhile (fun r => r.2 ≤ a) ++ tail)

/-- Embeds `DmaEntry` (pyrt/__init__.py lines 204-210): the four `u32` address
fields and the optional file name (a list of character codes; Python compares
strings lexicographically by code point, which `nameLE` below mirrors). -/
structure DmaEntry where
  vrom_start : Int
  vrom_end : Int
  rom_start : Int
  rom_end : Int
  name : Option (List Nat)
deriving DecidableEq

/-- Embeds `RomFile` (pyrt/__init__.py lines 232-239): the owned byte buffer
and the file's DMA entry. -/
structure RomFile where
  data : List Nat
  dma_entry : DmaEntry
deriving DecidableEq

/-- Lexicographic comparison of Python strings by code point. -/
def nameLE : List Nat → List Nat → Bool
  | [], _ => true
  | _ :: _, [] => false
  | x :: xs, y :: ys => if x < y then true else if y < x then false else nameLE xs ys

/-- Name used as a sort key; movable files always carry a name in the source
(comparing a missing name against a string would raise `TypeError` in Python),
so `getD` only totalizes the comparison. -/
def nameGD (f : RomFile) : List Nat := f.dma_entry.name.getD []

/-- Comparator realizing
`moveable_vrom_sorted.sort(key=lambda file: (len(file.data), file.dma_entry.name), reverse=True)`
(pyrt/__init__.py lines 597-601 and 652-657): `moveable_le f g` holds when `f`
precedes or ties `g` in the descending lexicographic `(length, name)` order. -/
def moveable_le (f g : RomFile) : Bool :=
  decide (g.data.length < f.data.length) ||
    (decide (f.data.length = g.data.length) && nameLE (nameGD g) (nameGD f))

/-- Embeds `list(moveable_vrom)` followed by the reverse-sort: the input list
is one iteration order of the `set`, and the sort is stable descending on the
`(len(file.data), name)` key. -/
def sortMoveable (l : List RomFile) : List RomFile := stableSort moveable_le l

/-- Allocation loop of `ROM.realloc_vrom` (pyrt/__init__.py lines 605-609):
for each movable file in order, carve a range of `len(file.data)` bytes out of
the free list and write it to `dma_entry.vrom_start`/`vrom_end`; a failed
allocation (out of space) aborts, modeled as `none`. Returns the updated
files in processing order together with the remaining free list. -/
def vromAllocLoop : List (Int × Int) → List RomFile →
    Option (List RomFile × List (Int × Int))
  | free, [] => some ([], free)
  | free, f :: rest =>
    match find_and_exclude_range free (f.data.length : Int) with
    | none => none
    | some ((s, e), free₂) =>
      match vromAllocLoop free₂ rest with
      | none => none
      | some (out, free₃) =>
        some ({ f with dma_entry := { f.dma_entry with
          vrom_start := s, vrom_end := e } } :: out, free₃)

/-- Allocation loop of `ROM.realloc_rom` (pyrt/__init__.py lines 661-665):
identical to the VROM loop except that the file receives
`rom_start = start` and `rom_end = 0`. -/
def romAllocLoop : List (Int × Int) → List RomFile →
    Option (List RomFile × List (Int × Int))
  | free, [] => some ([], free)
  | free, f :: rest =>
    match find_and_exclude_range free (f.data.length : Int) with
    | none => none
    | some ((s, _e), free₂) =>
      match romAllocLoop free₂ rest with
      | none => none
      | some (out, free₃) =>
        some ({ f with dma_entry := { f.dma_entry with
          rom_start := s, rom_end := 0 } } :: out, free₃)

/-- Fixed-file reservation loop of `ROM.realloc_vrom` (pyrt/__init__.py lines
573-580): for each file not in `moveable_vrom`, exclude its
`[vrom_start, vrom_end)` from the dynamic ranges and then assert
`len(file.data) == vrom_end - vrom_start`; the failed assertion (and a
`disjointed` exclusion failure) is modeled as `none`. Set membership in
`moveable_vrom` is by file value (`RomFile` defines no `__eq__`, so distinct
files are distinct set members). -/
def reserveFixedVrom (moveable : List RomFile) :
    List RomFile → List (Int × Int) → Option (List (Int × Int))
  | [], rs => some rs
  | f :: rest, rs =>
    if moveable.contains f then reserveFixedVrom moveable rest rs
    else
      match exclude_range rs f.dma_entry.vrom_start f.dma_entry.vrom_end with
      | none => none
      | some rs₂ =>
        if (f.data.length : Int) = f.dma_entry.vrom_end - f.dma_entry.vrom_start
        then reserveFixedVrom moveable rest rs₂
        else none

/-- Fixed-file reservation loop of `ROM.realloc_rom` (pyrt/__init__.py lines
636-641): for each file not in `moveable_rom`, exclude
`[rom_start, rom_start + len(file.data))` from the dynamic ranges. Unlike the
VROM side, there is no size assertion here. -/
def reserveFixedRom (moveable : List RomFile) :
    List RomFile → List (Int × Int) → Option (List (Int × Int))
  | [], rs => some rs
  | f :: rest, rs =>
    if moveable.contains f then reserveFixedRom moveable rest rs
    else
      match exclude_range rs f.dma_entry.rom_start
          (f.dma_entry.rom_start + (f.data.length : Int)) with
      | none => none
      | some rs₂ => reserveFixedRom moveable rest rs₂

/-- Embeds `ROM.realloc_vrom` (pyrt/__init__.py lines 568-609). `sharedInit`
is the content of the list object bound to the `ranges=[]` default argument of
`Ranges.__init__` at the moment `Ranges()` is evaluated (CPython creates that
list once, at function definition time, and `add_range`/`exclude_range`
mutate it in place, so a later `Ranges()` starts from whatever an earlier
instance left in it); on the program's first `Ranges()` use it is `[]`.
`moveable` is one iteration order of the `moveable_vrom` set. -/
def realloc_vrom (sharedInit : List (Int × Int)) (max_vrom : Int)
    (moveable files : List RomFile) : Option (List RomFile × List (Int × Int)) :=
  match reserveFixedVrom moveable files (add_range sharedInit 0 max_vrom) with
  | none => none
  | some rs => vromAllocLoop (sortByLength rs) (sortMoveable moveable)

/-- Embeds `ROM.realloc_rom` (pyrt/__init__.py lines 631-665), with the same
`sharedInit` reading as in `realloc_vrom`; when `realloc_rom` runs after
`realloc_vrom` in `main`, `sharedInit` is the free list left over by the VROM
pass (sorted by length and shrunk by the allocations). -/
def realloc_rom (sharedInit : List (Int × Int)) (max_rom : Int)
    (moveable files : List RomFile) : Option (List RomFile × List (Int × Int)) :=
  match reserveFixedRom moveable files (add_range sharedInit 0 max_rom) with
  | none => none
  | some rs => romAllocLoop (sortByLength rs) (sortMoveable moveable)

/-- Embeds `ROM.find_file_by_vrom` (pyrt/__init__.py lines 537-544): collect
the files whose `[vrom_start, vrom_end)` contains `vrom`, assert that exactly
one matches (`assert len(matching_files) == 1`, modeled as `none` on failure)
and return it. -/
def vromMatches (vrom : Int) (f : RomFile) : Bool :=
  decide (f.dma_entry.vrom_start ≤ vrom) && decide (vrom < f.dma_entry.vrom_end)

def find_file_by_vrom (files : List RomFile) (vrom : Int) : Option RomFile :=
  match files.filter (vromMatches vrom) with
  | [f] => some f
  | _ => none

/-- C8. If exactly one file's `[vrom_start, vrom_end)` range contains `vrom`
then `find_file_by_vrom` returns that file; if zero or several files' ranges
contain it, the lookup fails (`assert len(matching_files) == 1`). -/
theorem find_file_by_vrom_spec (files : List RomFile) (vrom : Int) :
    (files.countP (vromMatches vrom) = 1 →
      ∀ f ∈ files, vromMatches vrom f = true →
        find_file_by_vrom files vrom = some f) ∧
    (files.countP (vromMatches vrom) ≠ 1 →
      find_file_by_vrom files vrom = none) := by
  have hcount : files.countP (vromMatches vrom) =
      (files.filter (vromMatches vrom)).length := List.countP_eq_length_filter _ _
  rcases hfil : files.filter (vromMatches vrom) with _ | ⟨g, _ | ⟨g₂, t⟩⟩
  · rw [hfil, List.length_nil] at hcount
    constructor
    · intro h1
      omega
    · intro _
      unfold find_file_by_vrom
      rw [hfil]
  · constructor
    · intro _ f hf hpf
      have hmem : f ∈ files.filter (vromMatches vrom) :=
        List.mem_filter.mpr ⟨hf, hpf⟩
      rw [hfil] at hmem
      unfold find_file_by_vrom
      rw [hfil, List.mem_singleton.mp hmem]
    · intro hne
      rw [hfil] at hcount
      exact absurd (by simpa using hcount) hne
  · rw [hfil] at hcount
    constructor
    · intro h1
      rw [h1, List.length_cons, List.length_cons] at hcount
      omega
    · intro _
      unfold find_file_by_vrom
      rw [hfil]

/-- Concrete instance of `find_file_by_vrom_spec`: with two files covering
`[0,16)` and `[16,32)`, address 20 is matched by exactly the second file and
returned; address 40 is matched by no file and the lookup fails. -/
theorem find_file_by_vrom_spec_witness :
    find_file_by_vrom
      [⟨[0], ⟨0, 16, 0, 0, none⟩⟩, ⟨[1], ⟨16, 32, 0, 0, none⟩⟩] 20 =
      some ⟨[1], ⟨16, 32, 0, 0, none⟩⟩ ∧
    find_file_by_vrom
      [⟨[0], ⟨0, 16, 0, 0, none⟩⟩, ⟨[1], ⟨16, 32, 0, 0, none⟩⟩] 40 = none :=
  ⟨(find_file_by_vrom_spec
      [⟨[0], ⟨0, 16, 0, 0, none⟩⟩, ⟨[1], ⟨16, 32, 0, 0, none⟩⟩] 20).1
      (by decide) ⟨[1], ⟨16, 32, 0, 0, none⟩⟩ (by decide) (by decide),
   (find_file_by_vrom_spec
      [⟨[0], ⟨0, 16, 0, 0, none⟩⟩, ⟨[1], ⟨16, 32, 0, 0, none⟩⟩] 40).2
      (by decide)⟩

theorem reserveFixedVrom_mismatch_none (moveable : List RomFile) :
    ∀ (files : List RomFile) (rs : List (Int × Int)),
    (∃ f ∈ files, moveable.contains f = false ∧
      (f.data.length : Int) ≠ f.dma_entry.vrom_end - f.dma_entry.vrom_start) →
    reserveFixedVrom moveable files rs = none := by
  intro files
  induction files with
  | nil =>
    intro rs h
    simp at h
  | cons f rest ih =>
    intro rs h
    obtain ⟨f₀, hmem, hnm, hsz⟩ := h
    by_cases hc : moveable.contains f = true
    · simp only [reserveFixedVrom, if_pos hc]
      rcases List.mem_cons.mp hmem with heq | hmem₂
      · exact absurd hc (by rw [← heq, hnm]; simp)
      · exact ih rs ⟨f₀, hmem₂, hnm, hsz⟩
    · simp only [reserveFixedVrom, if_neg hc]
      rcases hex : exclude_range rs f.dma_entry.vrom_start f.dma_entry.vrom_end with
        _ | rs₂
      · rfl
      · dsimp only
        by_cases hchk : (f.data.length : Int) =
            f.dma_entry.vrom_end - f.dma_entry.vrom_start
        · rw [if_pos hchk]
          rcases List.mem_cons.mp hmem with heq | hmem₂
          · exact absurd hchk (heq ▸ hsz)
          · exact ih rs₂ ⟨f₀, hmem₂, hnm, hsz⟩
        · rw [if_neg hchk]

/-- C7 (amended). In the VROM space, `realloc_vrom` asserts
`len(file.data) == vrom_end - vrom_start` for every fixed (non-movable) file,
so any mismatch makes the whole reallocation fail. (The ROM space performs no
such check; see the companion counterexample.) -/
theorem realloc_vrom_fixed_size_mismatch_fatal
    (sharedInit : List (Int × Int)) (max_vrom : Int)
    (moveable files : List RomFile)
    (h : ∃ f ∈ files, moveable.contains f = false ∧
      (f.data.length : Int) ≠ f.dma_entry.vrom_end - f.dma_entry.vrom_start) :
    realloc_vrom sharedInit max_vrom moveable files = none := by
  unfold realloc_vrom
  rw [reserveFixedVrom_mismatch_none moveable files _ h]

/-- Concrete instance of `realloc_vrom_fixed_size_mismatch_fatal`: one fixed
file with 5 data bytes but a declared VROM range `[0,3)` makes `realloc_vrom`
fail. -/
theorem realloc_vrom_fixed_size_mismatch_fatal_witness :
    realloc_vrom [] 100 [] [⟨[9, 9, 9, 9, 9], ⟨0, 3, 0, 0, some [97]⟩⟩] = none :=
  realloc_vrom_fixed_size_mismatch_fatal [] 100 []
    [⟨[9, 9, 9, 9, 9], ⟨0, 3, 0, 0, some [97]⟩⟩]
    ⟨⟨[9, 9, 9, 9, 9], ⟨0, 3, 0, 0, some [97]⟩⟩, by decide⟩

/-- C7 is refuted on the ROM side: a fixed file whose data length (5) differs
from its declared `rom_end - rom_start` (0) is reserved without any check and
`realloc_rom` completes successfully, returning the free list `[(5,100)]` —
the reserved span is computed from `len(file.data)` itself and no mismatch is
detected, contradicting the claim that both address spaces verify
`len(data) == end - start` fatally. -/
theorem realloc_rom_no_size_check_counterexample :
    realloc_rom [] 100 [] [⟨[9, 9, 9, 9, 9], ⟨0, 3, 0, 0, some [97]⟩⟩] =
      some ([], [(5, 100)]) ∧
    ((⟨[9, 9, 9, 9, 9], ⟨0, 3, 0, 0, some [97]⟩⟩ : RomFile).data.length : Int) ≠
      (⟨[9, 9, 9, 9, 9], ⟨0, 3, 0, 0, some [97]⟩⟩ : RomFile).dma_entry.rom_end -
      (⟨[9, 9, 9, 9, 9], ⟨0, 3, 0, 0, some [97]⟩⟩ : RomFile).dma_entry.rom_start := by
  constructor
  · rfl
  · decide

theorem nameLE_total (a : List Nat) : ∀ b, nameLE a b = true ∨ nameLE b a = true := by
  induction a with
  | nil => intro b; left; rfl
  | cons x xs ih =>
    intro b
    cases b with
    | nil => right; rfl
    | cons y ys =>
      by_cases hxy : x < y
      · left
        simp [nameLE, hxy]
      · by_cases hyx : y < x
        · right
          simp [nameLE, hyx, hxy]
        · rcases ih ys with h | h
          · left
            simp [nameLE, hxy, hyx, h]
          · right
            simp [nameLE, hxy, hyx, h]

theorem nameLE_trans (a : List Nat) : ∀ b c, nameLE a b = true → nameLE b c = true →
    nameLE a c = true := by
  induction a with
  | nil => intro b c _ _; rfl
  | cons x xs ih =>
    intro b c hab hbc
    cases b with
    | nil => simp [nameLE] at hab
    | cons y ys =>
      cases c with
      | nil => simp [nameLE] at hbc
      | cons z zs =>
        simp only [nameLE] at hab hbc ⊢
        by_cases hxy : x < y
        · have hyz2 : y ≤ z := by
            by_cases hyz : y < z
            · omega
            · rw [if_neg hyz] at hbc
              by_cases hzy : z < y
              · rw [if_pos hzy] at hbc
                simp at hbc
              · omega
          rw [if_pos (by omega : x < z)]
        · rw [if_neg hxy] at hab
          by_cases hyx : y < x
          · rw [if_pos hyx] at hab
            simp at hab
          · rw [if_neg hyx] at hab
            have hxy2 : x = y := by omega
            subst hxy2
            by_cases hxz : x < z
            · rw [if_pos hxz]
            · rw [if_neg hxz] at hbc ⊢
              by_cases hzx : z < x
              · rw [if_pos hzx] at hbc
                simp at hbc
              · rw [if_neg hzx] at hbc ⊢
                exact ih ys zs hab hbc

theorem nameLE_antisymm (a : List Nat) : ∀ b, nameLE a b = true → nameLE b a = true →
    a = b := by
  induction a with
  | nil =>
    intro b _ hba
    cases b with
    | nil => rfl
    | cons y ys => simp [nameLE] at hba
  | cons x xs ih =>
    intro b hab hba
    cases b with
    | nil => simp [nameLE] at hab
    | cons y ys =>
      simp only [nameLE] at hab hba
      by_cases hxy : x < y
      · rw [if_neg (by omega : ¬ y < x), if_pos hxy] at hba
        simp at hba
      · by_cases hyx : y < x
        · rw [if_neg hxy, if_pos hyx] at hab
          simp at hab
        · rw [if_neg hxy, if_neg hyx] at hab
          rw [if_neg hyx, if_neg hxy] at hba
          have : x = y := by omega
          rw [this, ih ys hab hba]

theorem moveable_le_total (f g : RomFile) :
    moveable_le f g = true ∨ moveable_le g f = true := by
  unfold moveable_le
  by_cases h : f.data.length = g.data.length
  · rcases nameLE_total (nameGD g) (nameGD f) with hn | hn
    · left
      simp [h, hn]
    · right
      simp [h.symm, hn]
  · by_cases hlt : f.data.length < g.data.length
    · right
      simp [hlt]
    · left
      simp [show g.data.length < f.data.length by omega]

theorem moveable_le_trans (f g h : RomFile) (h₁ : moveable_le f g = true)
    (h₂ : moveable_le g h = true) : moveable_le f h = true := by
  unfold moveable_le at h₁ h₂ ⊢
  simp only [Bool.or_eq_true, Bool.and_eq_true, decide_eq_true_eq] at h₁ h₂ ⊢
  rcases h₁ with h₁ | ⟨h₁e, h₁n⟩ <;> rcases h₂ with h₂ | ⟨h₂e, h₂n⟩
  · left; omega
  · left; omega
  · left; omega
  · right
    exact ⟨by omega, nameLE_trans _ _ _ h₂n h₁n⟩

/-- Sort key of the reverse sort in `realloc_vrom`/`realloc_rom`:
`(len(file.data), file.dma_entry.name)`. -/
def fileKey (f : RomFile) : Nat × List Nat := (f.data.length, nameGD f)

theorem moveable_le_antisymm_key {f g : RomFile} (h₁ : moveable_le f g = true)
    (h₂ : moveable_le g f = true) : fileKey f = fileKey g := by
  unfold moveable_le at h₁ h₂
  simp only [Bool.or_eq_true, Bool.and_eq_true, decide_eq_true_eq] at h₁ h₂
  unfold fileKey
  rcases h₁ with h₁ | ⟨h₁e, h₁n⟩ <;> rcases h₂ with h₂ | ⟨h₂e, h₂n⟩
  · omega
  · omega
  · omega
  · rw [h₁e, nameLE_antisymm _ _ h₂n h₁n]

/-- Relation between a movable file and its reallocated copy in the VROM pass:
only the VROM fields change, and the new range ends at
`vrom_start + len(data)`. -/
def vromAssigned (f g : RomFile) : Prop :=
  g.data = f.data ∧ g.dma_entry.name = f.dma_entry.name ∧
  g.dma_entry.rom_start = f.dma_entry.rom_start ∧
  g.dma_entry.rom_end = f.dma_entry.rom_end ∧
  g.dma_entry.vrom_end = g.dma_entry.vrom_start + (g.data.length : Int)

/-- Relation between a movable file and its reallocated copy in the ROM pass:
only the ROM fields change, and `rom_end` is written back as `0`. -/
def romAssigned (f g : RomFile) : Prop :=
  g.data = f.data ∧ g.dma_entry.name = f.dma_entry.name ∧
  g.dma_entry.vrom_start = f.dma_entry.vrom_start ∧
  g.dma_entry.vrom_end = f.dma_entry.vrom_end ∧
  g.dma_entry.rom_end = 0

theorem vromAllocLoop_forall₂ : ∀ (l : List RomFile) (free : List (Int × Int))
    (out : List RomFile) (fr : List (Int × Int)),
    vromAllocLoop free l = some (out, fr) → List.Forall₂ vromAssigned l out := by
  intro l
  induction l with
  | nil =>
    intro free out fr h
    simp only [vromAllocLoop, Option.some.injEq, Prod.mk.injEq] at h
    rw [← h.1]
    exact List.Forall₂.nil
  | cons f rest ih =>
    intro free out fr h
    simp only [vromAllocLoop] at h
    rcases hfind : find_and_exclude_range free (f.data.length : Int) with _ | ⟨⟨s, e⟩, free₂⟩
    · rw [hfind] at h
      simp at h
    · rw [hfind] at h
      dsimp only at h
      rcases hrec : vromAllocLoop free₂ rest with _ | ⟨out₂, free₃⟩
      · rw [hrec] at h
        simp at h
      · rw [hrec] at h
        dsimp only at h
        simp only [Option.some.injEq, Prod.mk.injEq] at h
        rw [← h.1]
        refine List.Forall₂.cons ?_ (ih free₂ out₂ free₃ hrec)
        refine ⟨rfl, rfl, rfl, rfl, ?_⟩
        have he : e = s + (f.data.length : Int) := find_and_exclude_range_len hfind
        simpa using he

theorem romAllocLoop_forall₂ : ∀ (l : List RomFile) (free : List (Int × Int))
    (out : List RomFile) (fr : List (Int × Int)),
    romAllocLoop free l = some (out, fr) → List.Forall₂ romAssigned l out := by
  intro l
  induction l with
  | nil =>
    intro free out fr h
    simp only [romAllocLoop, Option.some.injEq, Prod.mk.injEq] at h
    rw [← h.1]
    exact List.Forall₂.nil
  | cons f rest ih =>
    intro free out fr h
    simp only [romAllocLoop] at h
    rcases hfind : find_and_exclude_range free (f.data.length : Int) with _ | ⟨⟨s, e⟩, free₂⟩
    · rw [hfind] at h
      simp at h
    · rw [hfind] at h
      dsimp only at h
      rcases hrec : romAllocLoop free₂ rest with _ | ⟨out₂, free₃⟩
      · rw [hrec] at h
        simp at h
      · rw [hrec] at h
        dsimp only at h
        simp only [Option.some.injEq, Prod.mk.injEq] at h
        rw [← h.1]
        exact List.Forall₂.cons ⟨rfl, rfl, rfl, rfl, rfl⟩ (ih free₂ out₂ free₃ hrec)

/-- C4. The reallocation engine processes the movable files as the
stable descending sort on the `(len(file.data), name)` key (a permutation of
the movable set, pairwise ordered by the reverse-sort comparator); every
allocator grant spans exactly the requested length, and on success each VROM
pass output satisfies `vrom_end = vrom_start + len(data)` while each ROM pass
output has `rom_end = 0` (with data, name and the other space's range
untouched). -/
theorem realloc_processing_order_and_assignment :
    (∀ (ranges : List (Int × Int)) (length s e : Int) (rest : List (Int × Int)),
      find_and_exclude_range ranges length = some ((s, e), rest) →
        e = s + length) ∧
    (∀ moveable : List RomFile,
      (sortMoveable moveable).Perm moveable ∧
      (sortMoveable moveable).Pairwise (fun f g => moveable_le f g = true)) ∧
    (∀ (moveable : List RomFile) (free : List (Int × Int)) (out : List RomFile)
        (fr : List (Int × Int)),
      vromAllocLoop free (sortMoveable moveable) = some (out, fr) →
        List.Forall₂ vromAssigned (sortMoveable moveable) out) ∧
    (∀ (moveable : List RomFile) (free : List (Int × Int)) (out : List RomFile)
        (fr : List (Int × Int)),
      romAllocLoop free (sortMoveable moveable) = some (out, fr) →
        List.Forall₂ romAssigned (sortMoveable moveable) out) :=
  ⟨fun _ _ _ _ _ h => find_and_exclude_range_len h,
   fun moveable => ⟨stableSort_perm _ moveable,
     stableSort_pairwise moveable_le_trans moveable_le_total moveable⟩,
   fun _ free out fr h => vromAllocLoop_forall₂ _ free out fr h,
   fun _ free out fr h => romAllocLoop_forall₂ _ free out fr h⟩

/-- Concrete instance of `realloc_processing_order_and_assignment`: a 1-byte
and a 2-byte movable file are processed largest first, each receives exactly
its length, the VROM pass writes the real end address and the ROM pass writes
`rom_end = 0`. -/
theorem realloc_processing_order_and_assignment_witness :
    ((5 : Int) = 2 + 3) ∧
    List.Forall₂ vromAssigned
      (sortMoveable [⟨[7], ⟨60, 61, 20, 0, some [98]⟩⟩, ⟨[7, 7], ⟨50, 52, 10, 0, some [97]⟩⟩])
      [⟨[7, 7], ⟨0, 2, 10, 0, some [97]⟩⟩, ⟨[7], ⟨2, 3, 20, 0, some [98]⟩⟩] ∧
    List.Forall₂ romAssigned
      (sortMoveable [⟨[7], ⟨60, 61, 20, 0, some [98]⟩⟩, ⟨[7, 7], ⟨50, 52, 10, 0, some [97]⟩⟩])
      [⟨[7, 7], ⟨50, 52, 0, 0, some [97]⟩⟩, ⟨[7], ⟨60, 61, 2, 0, some [98]⟩⟩] :=
  ⟨realloc_processing_order_and_assignment.1 [(2, 10)] 3 2 5 [(5, 10)] (by decide),
   realloc_processing_order_and_assignment.2.2.1
     [⟨[7], ⟨60, 61, 20, 0, some [98]⟩⟩, ⟨[7, 7], ⟨50, 52, 10, 0, some [97]⟩⟩]
     [(0, 100)] _ [(3, 100)] (by decide),
   realloc_processing_order_and_assignment.2.2.2
     [⟨[7], ⟨60, 61, 20, 0, some [98]⟩⟩, ⟨[7, 7], ⟨50, 52, 10, 0, some [97]⟩⟩]
     [(0, 100)] _ [(3, 100)] (by decide)⟩

/-- Two movable files with identical `(len(data), name)` sort keys but
distinct identities (different data bytes and different ROM positions), used
to exhibit the iteration-order dependence of the reallocation. -/
def dupKeyFileA : RomFile := ⟨List.replicate 16 1, ⟨0, 16, 0, 0, some [97]⟩⟩

def dupKeyFileB : RomFile := ⟨List.replicate 16 2, ⟨100, 116, 555, 0, some [97]⟩⟩

/-- C6 is refuted as stated: the movable set is iterated by `list(moveable_vrom)`
in an arbitrary (CPython id-dependent) order, and for two movable files with
equal `(len(data), name)` keys the stable descending sort preserves that
order, so the file stored at ROM offset 0 is assigned VROM start 0 under one
iteration order and VROM start 16 under the other — the two runs do not
produce identical address assignments for every file. -/
theorem realloc_iteration_order_counterexample :
    (vromAllocLoop [(0, 100)] (sortMoveable [dupKeyFileA, dupKeyFileB])).map
      (fun p => p.1.map (fun g => (g.dma_entry.rom_start, g.dma_entry.vrom_start))) =
      some [(0, 0), (555, 16)] ∧
    (vromAllocLoop [(0, 100)] (sortMoveable [dupKeyFileB, dupKeyFileA])).map
      (fun p => p.1.map (fun g => (g.dma_entry.rom_start, g.dma_entry.vrom_start))) =
      some [(555, 0), (0, 16)] := by
  constructor
  · rfl
  · rfl

theorem sorted_key_inj_perm_eq : ∀ (l₁ l₂ : List RomFile), l₁.Perm l₂ →
    l₁.Pairwise (fun f g => moveable_le f g = true) →
    l₂.Pairwise (fun f g => moveable_le f g = true) →
    (∀ a ∈ l₁, ∀ b ∈ l₁, fileKey a = fileKey b → a = b) →
    l₁ = l₂ := by
  intro l₁
  induction l₁ with
  | nil =>
    intro l₂ hperm _ _ _
    exact (hperm.symm.eq_nil).symm
  | cons a t₁ ih =>
    intro l₂ hperm hp₁ hp₂ hinj
    cases l₂ with
    | nil => exact absurd hperm.eq_nil (by simp)
    | cons b t₂ =>
      by_cases hab : a = b
      · subst hab
        rw [ih t₂ hperm.cons_inv hp₁.of_cons hp₂.of_cons
          (fun x hx y hy => hinj x (List.mem_cons_of_mem _ hx) y (List.mem_cons_of_mem _ hy))]
      · exfalso
        have hamem : a ∈ t₂ := by
          rcases List.mem_cons.mp (hperm.mem_iff.mp (List.mem_cons_self a t₁)) with h | h
          · exact absurd h hab
          · exact h
        have hbmem : b ∈ t₁ := by
          rcases List.mem_cons.mp (hperm.symm.mem_iff.mp (List.mem_cons_self b t₂)) with h | h
          · exact absurd h.symm hab
          · exact h
        have h₁ : moveable_le a b = true := List.rel_of_pairwise_cons hp₁ hbmem
        have h₂ : moveable_le b a = true := List.rel_of_pairwise_cons hp₂ hamem
        exact hab (hinj a (List.mem_cons_self a t₁) b (List.mem_cons_of_mem a hbmem)
          (moveable_le_antisymm_key h₁ h₂))

/-- C6 (amended). If no two movable files share the same `(len(data), name)`
sort key, the stable descending sort has a unique result for every iteration
order of the movable set, hence both reallocation passes produce identical
address assignments across runs on identical input; with duplicate keys the
relative order of the duplicates (and their assigned, equal-length ranges)
follows the unordered set's iteration order. -/
theorem realloc_deterministic_of_key_inj (l₁ l₂ : List RomFile)
    (free : List (Int × Int)) (hperm : l₁.Perm l₂)
    (hinj : ∀ a ∈ l₁, ∀ b ∈ l₁, fileKey a = fileKey b → a = b) :
    sortMoveable l₁ = sortMoveable l₂ ∧
    vromAllocLoop free (sortMoveable l₁) = vromAllocLoop free (sortMoveable l₂) ∧
    romAllocLoop free (sortMoveable l₁) = romAllocLoop free (sortMoveable l₂) := by
  have hs : sortMoveable l₁ = sortMoveable l₂ := by
    refine sorted_key_inj_perm_eq (sortMoveable l₁) (sortMoveable l₂)
      ((stableSort_perm _ l₁).trans (hperm.trans (stableSort_perm _ l₂).symm))
      (stableSort_pairwise moveable_le_trans moveable_le_total l₁)
      (stableSort_pairwise moveable_le_trans moveable_le_total l₂) ?_
    intro a ha b hb
    exact hinj a ((stableSort_perm _ l₁).mem_iff.mp ha)
      b ((stableSort_perm _ l₁).mem_iff.mp hb)
  exact ⟨hs, by rw [hs], by rw [hs]⟩

/-- Concrete instance of `realloc_deterministic_of_key_inj`: two distinct-key
movable files listed in either order sort and allocate identically. -/
theorem realloc_deterministic_of_key_inj_witness :
    sortMoveable [⟨[7], ⟨60, 61, 20, 0, some [98]⟩⟩, ⟨[7, 7], ⟨50, 52, 10, 0, some [97]⟩⟩] =
      sortMoveable [⟨[7, 7], ⟨50, 52, 10, 0, some [97]⟩⟩, ⟨[7], ⟨60, 61, 20, 0, some [98]⟩⟩] :=
  (realloc_deterministic_of_key_inj
    [⟨[7], ⟨60, 61, 20, 0, some [98]⟩⟩, ⟨[7, 7], ⟨50, 52, 10, 0, some [97]⟩⟩]
    [⟨[7, 7], ⟨50, 52, 10, 0, some [97]⟩⟩, ⟨[7], ⟨60, 61, 20, 0, some [98]⟩⟩]
    [(0, 100)]
    (List.Perm.swap _ _ _)
    (by decide)).1

/-- Models the CPython semantics of `Ranges.__init__(self, ranges=[])`
(pyrt/__init__.py lines 36-45): the default list object is created once, when
the `def` is evaluated, and every call `Ranges()` binds `self.ranges` to that
same object. `add_range` and `exclude_range` mutate it in place (`pop`,
`insert`), and `RangesAscendingLength.__init__` aliases and sorts the same
object in place, so the next `Ranges()` starts from whatever state the
previous instance left. The shared object's current state is passed in
explicitly as `sharedDefault`. -/
def ranges_init_noarg (sharedDefault : List (Int × Int)) : List (Int × Int) :=
  sharedDefault

/-- C3 is refuted as stated: a `Ranges()` constructed after an earlier
instance has mutated the shared `ranges=[]` default (here by the
`add_range(0, 0x4000000)` that `realloc_vrom` performs first) does not start
with an empty free-range list — the instances share one list object. -/
theorem ranges_init_shared_default_counterexample :
    ¬ (ranges_init_noarg (add_range (ranges_init_noarg []) 0 0x4000000) = []) := by
  decide

theorem addRangeLoop_swallow : ∀ (l : List (Int × Int)) (a b : Int),
    (∀ r ∈ l, a ≤ r.1 ∧ r.1 ≤ b ∧ r.2 ≤ b) → addRangeLoop a b l = [(a, b)] := by
  intro l
  induction l with
  | nil => intro a b _; rfl
  | cons r rest ih =>
    intro a b h
    obtain ⟨s, e⟩ := r
    obtain ⟨has, hsb, heb⟩ := h (s, e) (List.mem_cons_self _ _)
    simp only [addRangeLoop, if_neg (show ¬ b < s by omega)]
    rw [min_eq_left has, max_eq_left heb]
    exact ih a b (fun q hq => h q (List.mem_cons_of_mem _ hq))

theorem add_range_swallow {l : List (Int × Int)} {maxR : Int}
    (h : ∀ r ∈ l, 0 ≤ r.1 ∧ r.1 ≤ maxR ∧ 0 < r.2 ∧ r.2 ≤ maxR) :
    add_range l 0 maxR = [(0, maxR)] := by
  cases l with
  | nil => rfl
  | cons r rest =>
    have hr := h r (List.mem_cons_self _ _)
    have hc2 : decide (r.2 < (0 : Int)) = false := by
      simp only [decide_eq_false_iff_not]
      omega
    simp only [add_range, List.takeWhile_cons, List.dropWhile_cons, hc2,
      Bool.false_eq_true, if_false, List.nil_append]
    exact addRangeLoop_swallow (r :: rest) 0 maxR
      (fun q hq => by have := h q hq; omega)

/-- C3 (amended). `Ranges()` uses one shared default list, so the allocator
`realloc_rom` builds starts from the free list left over by `realloc_vrom`;
but every leftover range lies inside `[0, max_rom)` (`max_vrom = max_rom =
0x4000000`), so the initial `add_range(0, max_rom)` coalesces all of them
into the single range `[0, max_rom)` and the whole ROM reallocation is
identical to one started from a fresh empty list — the ROM free set is built
from `[0, max_rom)` minus the immovable files' ROM ranges, unaffected by the
preceding VROM reallocation. -/
theorem realloc_rom_unaffected_by_shared_default
    (leftover : List (Int × Int)) (max_rom : Int) (moveable files : List RomFile)
    (h : ∀ r ∈ leftover, 0 ≤ r.1 ∧ r.1 ≤ max_rom ∧ 0 < r.2 ∧ r.2 ≤ max_rom) :
    add_range (ranges_init_noarg leftover) 0 max_rom = [(0, max_rom)] ∧
    realloc_rom leftover max_rom moveable files =
      realloc_rom [] max_rom moveable files := by
  have h1 : add_range leftover 0 max_rom = [(0, max_rom)] := add_range_swallow h
  refine ⟨h1, ?_⟩
  unfold realloc_rom
  rw [h1, add_range_nil]

/-- Concrete instance of `realloc_rom_unaffected_by_shared_default`: a
length-sorted VROM leftover list `[(30,32), (3,10)]` inside `[0,64)` is
swallowed and the ROM pass equals the fresh-list run. -/
theorem realloc_rom_unaffected_by_shared_default_witness :
    add_range (ranges_init_noarg [(30, 32), (3, 10)]) 0 64 = [(0, 64)] ∧
    realloc_rom [(30, 32), (3, 10)] 64 [] [] = realloc_rom [] 64 [] [] :=
  realloc_rom_unaffected_by_shared_default [(30, 32), (3, 10)] 64 [] [] (by decide)

/-- A module as seen by `PyRTInterface.register_modules`: its task name and
its declared task dependencies (`ModuleInfo.task`, `ModuleInfo.task_dependencies`). -/
def ModInfo : Type := String × List String

/-- The generator-with-`next` selection inside `register_modules`
(pyrt/__init__.py lines 941-951): the first unregistered module whose
dependency set is disjoint from the names of the remaining unregistered
modules (`not (task_dependencies & unregistered_modules.keys())`); returns
the chosen module together with the remaining modules in order. -/
def selectFirst (names : List String) : List ModInfo →
    Option (ModInfo × List ModInfo)
  | [] => none
  | m :: rest =>
    if m.2.all (fun d => ¬ names.contains d) then some (m, rest)
    else
      match selectFirst names rest with
      | none => none
      | some (c, rem) => some (c, m :: rem)

/-- Loop of `PyRTInterface.register_modules` (pyrt/__init__.py lines 935-960):
while unregistered modules remain, pick one via `selectFirst` and register it
(`module_info.register(self)` — the accumulated list is the order of those
calls); when none is selectable the loop prints
"Can't solve dependencies for remaining modules." and `break`s, returning
normally with the remaining modules unregistered. `fuel` starts at the number
of modules, which the loop can never exceed since every iteration removes
one. -/
def register_modules_go : Nat → List ModInfo → List ModInfo →
    List ModInfo × List ModInfo
  | 0, u, acc => (acc.reverse, u)
  | fuel + 1, u, acc =>
    match u with
    | [] => (acc.reverse, [])
    | _ :: _ =>
      match selectFirst (u.map Prod.fst) u with
      | none => (acc.reverse, u)
      | some (m, rem) => register_modules_go fuel rem (m :: acc)

/-- Embeds `PyRTInterface.register_modules`, whose module dictionary is the
insertion-ordered `{module.pyrt_module_info.task: module for module in
self.modules}` (task names are unique — `load_modules` raises on a duplicate
task). Returns the modules in registration order and the modules left
unregistered. -/
def register_modules (mods : List ModInfo) : List ModInfo × List ModInfo :=
  register_modules_go mods.length mods []

theorem selectFirst_spec (names : List String) : ∀ (u : List ModInfo)
    (m : ModInfo) (rem : List ModInfo), selectFirst names u = some (m, rem) →
    (∀ d ∈ m.2, ¬ d ∈ names) ∧ u.Perm (m :: rem) := by
  intro u
  induction u with
  | nil =>
    intro m rem h
    simp [selectFirst] at h
  | cons m₀ rest ih =>
    intro m rem h
    by_cases hsel : m₀.2.all (fun d => ¬ names.contains d) = true
    · rw [selectFirst, if_pos hsel] at h
      simp only [Option.some.injEq, Prod.mk.injEq] at h
      obtain ⟨hm, hrem⟩ := h
      subst hm
      subst hrem
      constructor
      · intro d hd
        have h2 := List.all_eq_true.mp hsel d hd
        simpa using h2
      · exact List.Perm.refl _
    · rw [selectFirst, if_neg hsel] at h
      rcases hrec : selectFirst names rest with _ | ⟨c, rem₂⟩
      · rw [hrec] at h
        simp at h
      · rw [hrec] at h
        dsimp only at h
        simp only [Option.some.injEq, Prod.mk.injEq] at h
        obtain ⟨hm, hrem⟩ := h
        subst hm
        subst hrem
        obtain ⟨hdeps, hperm⟩ := ih c rem₂ hrec
        exact ⟨hdeps, (List.Perm.cons m₀ hperm).trans (List.Perm.swap c m₀ rem₂)⟩

/-- Dependency soundness of a registration order `reg` with leftover `left`:
each registered module's dependencies avoid every task registered at or after
it and every leftover task. -/
def RegOK (reg left : List ModInfo) : Prop :=
  ∀ pre m post, reg = pre ++ m :: post → ∀ d ∈ m.2,
    ¬ d ∈ (m :: post).map Prod.fst ∧ ¬ d ∈ left.map Prod.fst

theorem register_modules_go_spec : ∀ (fuel : Nat) (u acc : List ModInfo),
    ∃ reg : List ModInfo,
      (register_modules_go fuel u acc).1 = acc.reverse ++ reg ∧
      u.Perm (reg ++ (register_modules_go fuel u acc).2) ∧
      RegOK reg (register_modules_go fuel u acc).2 := by
  intro fuel
  induction fuel with
  | zero =>
    intro u acc
    refine ⟨[], by simp [register_modules_go], by simp [register_modules_go], ?_⟩
    intro pre m post hsplit
    exact absurd hsplit (by simp)
  | succ fuel ih =>
    intro u acc
    match u with
    | [] =>
      refine ⟨[], by simp [register_modules_go], by simp [register_modules_go], ?_⟩
      intro pre m post hsplit
      exact absurd hsplit (by simp)
    | u₀ :: urest =>
      rcases hsel : selectFirst ((u₀ :: urest).map Prod.fst) (u₀ :: urest) with
        _ | ⟨m, rem⟩
      · have hgo : register_modules_go (fuel + 1) (u₀ :: urest) acc =
            (acc.reverse, u₀ :: urest) := by
          rw [register_modules_go, hsel]
        refine ⟨[], ?_, ?_, ?_⟩
        · rw [hgo]
          simp
        · rw [hgo]
          exact List.Perm.refl _
        · intro pre m post hsplit
          exact absurd hsplit (by simp)
      · have hgo : register_modules_go (fuel + 1) (u₀ :: urest) acc =
            register_modules_go fuel rem (m :: acc) := by
          rw [register_modules_go, hsel]
        obtain ⟨hdeps, hperm⟩ := selectFirst_spec _ _ m rem hsel
        obtain ⟨reg₂, hout, hperm₂, hok₂⟩ := ih rem (m :: acc)
        refine ⟨m :: reg₂, ?_, ?_, ?_⟩
        · rw [hgo, hout]
          simp
        · rw [hgo]
          exact hperm.trans (List.Perm.cons m hperm₂)
        · rw [hgo]
          intro pre m₃ post hsplit
          cases pre with
          | nil =>
            simp only [List.nil_append, List.cons.injEq] at hsplit
            obtain ⟨hm₃, hpost⟩ := hsplit
            subst hm₃
            subst hpost
            intro d hd
            have hnot : ¬ d ∈ (u₀ :: urest).map Prod.fst := hdeps d hd
            have hsub : ∀ x ∈ (m :: reg₂) ++ (register_modules_go fuel rem (m :: acc)).2,
                x ∈ u₀ :: urest := by
              intro x hx
              exact (hperm.trans (List.Perm.cons m hperm₂)).symm.mem_iff.mp hx
            constructor
            · intro hmem
              obtain ⟨x, hx, hxd⟩ := List.mem_map.mp hmem
              exact hnot (List.mem_map.mpr ⟨x, hsub x (List.mem_append_left _ hx), hxd⟩)
            · intro hmem
              obtain ⟨x, hx, hxd⟩ := List.mem_map.mp hmem
              exact hnot (List.mem_map.mpr ⟨x, hsub x (List.mem_append_right _ hx), hxd⟩)
          | cons p₀ pre₂ =>
            simp only [List.cons_append, List.cons.injEq] at hsplit
            exact hok₂ pre₂ m₃ post hsplit.2

/-- C9 (amended). `register_modules` repeatedly registers a not-yet-registered
task whose dependency set is disjoint from the remaining unregistered task
names; the registration order and the unregistered leftover partition the
module list, every registered module's declared dependencies that name tasks
of the run were registered strictly before it, and when everything registers
the order is a permutation of the whole module list. When no selectable task
exists the loop reports and stops normally, keeping prior registrations (see
the companion counterexample for the cyclic case). -/
theorem register_modules_spec (mods : List ModInfo) :
    ∃ reg : List ModInfo,
      (register_modules mods).1 = reg ∧
      mods.Perm (reg ++ (register_modules mods).2) ∧
      (∀ pre m post, reg = pre ++ m :: post → ∀ d ∈ m.2,
        d ∈ mods.map Prod.fst → d ∈ pre.map Prod.fst) ∧
      ((register_modules mods).2 = [] → reg.Perm mods) := by
  unfold register_modules
  obtain ⟨reg, hout, hperm, hok⟩ :=
    register_modules_go_spec mods.length mods []
  refine ⟨reg, by simpa using hout, hperm, ?_, ?_⟩
  · intro pre m post hsplit d hd hdmods
    have hperm₂ : (mods.map Prod.fst).Perm
        ((pre.map Prod.fst ++ (m :: post).map Prod.fst) ++
          ((register_modules_go mods.length mods []).2).map Prod.fst) := by
      have := (hperm.map Prod.fst)
      simpa [hsplit, List.map_append] using this
    have hdmem : d ∈ (pre.map Prod.fst ++ (m :: post).map Prod.fst) ++
        ((register_modules_go mods.length mods []).2).map Prod.fst :=
      hperm₂.mem_iff.mp hdmods
    obtain ⟨hnotpost, hnotleft⟩ := hok pre m post hsplit d hd
    rcases List.mem_append.mp hdmem with hdm | hdm
    · rcases List.mem_append.mp hdm with hdm | hdm
      · exact hdm
      · exact absurd hdm hnotpost
    · exact absurd hdm hnotleft
  · intro hleft
    rw [hleft, List.append_nil] at hperm
    exact hperm.symm

/-- Concrete instance of `register_modules_spec` on the spec's example tasks
`A` (no deps), `B` (deps `{A}`), `C` (deps `{B}`) given in scrambled input
order: everything registers, and the order is the permutation `A, B, C`. -/
theorem register_modules_spec_witness :
    (register_modules [("C", ["B"]), ("A", []), ("B", ["A"])]).1.Perm
      [("C", ["B"]), ("A", []), ("B", ["A"])] ∧
    (register_modules [("C", ["B"]), ("A", []), ("B", ["A"])]).1 =
      [("A", []), ("B", ["A"]), ("C", ["B"])] := by
  obtain ⟨reg, hout, hperm, hdep, hcomplete⟩ :=
    register_modules_spec [("C", ["B"]), ("A", []), ("B", ["A"])]
  refine ⟨?_, by rfl⟩
  rw [hout]
  exact hcomplete (by rfl)

/-- C9 is refuted as stated on fatality: with tasks `A` (no deps) and the
cycle `B → C → B`, `register_modules` registers `A`, then prints
"Can't solve dependencies for remaining modules." and `break`s — it returns
normally with `B` and `C` silently left unregistered, so an unsatisfiable
dependency set is not a fatal error and the partial registration is reported
as an ordinary successful completion. -/
theorem register_modules_cycle_counterexample :
    register_modules [("A", []), ("B", ["C"]), ("C", ["B"])] =
      ([("A", [])], [("B", ["C"]), ("C", ["B"])]) := by
  rfl

/-- Byte read `scene_data[i]`; the walk below only reads under its own bounds
guard `alt_offset + 8 <= len(scene_data)`, so the default is never exercised
on the offsets the loop touches. -/
def byteAt (d : List Nat) (i : Nat) : Nat := d.getD i 0

/-- Embeds the alternate-header validation walk of `ROM.parse_scene_headers`
(pyrt/__init__.py lines 462-488; textually identical in
`scene_header_room_lists.parse_scene_headers` lines 72-96): starting from the
candidate offset with `alt_code = None`, loop while `alt_code != 0x14` and
`alt_offset + 8 <= len(scene_data)`; unpack the command code (the `>BBxxI`
struct puts it in the first byte), `break` on a code `>= 0x1A`, on a code in
`{0x01, 0x0A, 0x0B, 0x18}`, or — for codes in
`{0x00, 0x03, 0x04, 0x06, 0x0E, 0x0F, 0x13}` — when the enclosing `0x18`
command's `data2` (the source tests `data2`, not `alt_data2`) is not a
segment-2 offset inside the buffer. Faithfully to the source, `alt_offset` is
never advanced in the loop body (the advance exists only in
`pack_room_lists`, where it is flagged `# FIXME another uncopied bugfix`).
`fuel` bounds the number of iterations; `none` means the loop has not exited
within `fuel` steps, and the final `alt_code` is returned on exit. -/
def altHeaderWalk (sceneData : List Nat) (data2 : Nat) :
    Nat → Nat → Option Nat → Option (Option Nat)
  | 0, _, _ => none
  | fuel + 1, altOffset, altCode =>
    if altCode ≠ some 0x14 ∧ altOffset + 8 ≤ sceneData.length then
      let c := byteAt sceneData altOffset
      if 0x1A ≤ c then some (some c)
      else if c = 0x01 ∨ c = 0x0A ∨ c = 0x0B ∨ c = 0x18 then some (some c)
      else if (c = 0x00 ∨ c = 0x03 ∨ c = 0x04 ∨ c = 0x06 ∨ c = 0x0E ∨
               c = 0x0F ∨ c = 0x13) ∧
              (data2 / 0x1000000 ≠ 0x02 ∨ sceneData.length ≤ data2 % 0x1000000) then
        some (some c)
      else altHeaderWalk sceneData data2 fuel altOffset (some c)
    else some altCode

theorem altHeaderWalk_stuck : ∀ fuel : Nat,
    altHeaderWalk [0x02, 0, 0, 0, 0x02, 0, 0, 0x10] 0x02000000 fuel 0 (some 0x02) =
      none := by
  intro fuel
  induction fuel with
  | zero => rfl
  | succ fuel ih =>
    rw [altHeaderWalk, if_pos (by decide)]
    exact ih

/-- C10 is refuted on the code: for the 8-byte scene buffer holding the single
command `(code 0x02, data1 0, data2 0x0200000010…)` — a command that is valid
in the alternate-header context and is not the terminator — the validation
walk of `parse_scene_headers` re-reads the same command forever (`alt_offset`
is never incremented, the increment exists only in `pack_room_lists` where it
is marked `# FIXME another uncopied bugfix`): no iteration bound makes it
reach a verdict, so the walk does not terminate, neither accepting nor
rejecting the candidate. -/
theorem altHeaderWalk_nonterminating : ∀ fuel : Nat,
    altHeaderWalk [0x02, 0, 0, 0, 0x02, 0, 0, 0x10] 0x02000000 fuel 0 none = none := by
  intro fuel
  cases fuel with
  | zero => rfl
  | succ fuel =>
    rw [altHeaderWalk, if_pos (by decide)]
    exact altHeaderWalk_stuck fuel

/-- Modelled from the spec: the sources contain no alignment logic (`alloc`
with an `align` parameter exists only in the repository's tests,
`TestAllocator.test_alloc_notail`, and `realloc_vrom` carries the comment
`# FIXME handle alignment somewhere`); per §4.1 the intended `alloc(size,
align)` scans the free ranges in the caller's (smallest-first) order and
returns the first range that can hold `size` bytes starting at the range
start rounded up to a multiple of `align`, `[start2, start2 + size)`. -/
def allocAligned : List (Int × Int) → Int → Int → Option (Int × Int)
  | [], _, _ => none
  | (s, e) :: rest, size, align =>
    let s₂ := align * ((s + align - 1) / align)
    if s₂ + size ≤ e then some (s₂, s₂ + size) else allocAligned rest size align

theorem allocAligned_dvd : ∀ (free : List (Int × Int)) (size align s e : Int),
    allocAligned free size align = some (s, e) → align ∣ s := by
  intro free
  induction free with
  | nil =>
    intro size align s e h
    simp [allocAligned] at h
  | cons r rest ih =>
    intro size align s e h
    obtain ⟨rs, re⟩ := r
    rw [allocAligned] at h
    by_cases hfit : align * ((rs + align - 1) / align) + size ≤ re
    · rw [if_pos hfit] at h
      simp only [Option.some.injEq, Prod.mk.injEq] at h
      exact h.1 ▸ Dvd.intro _ rfl
    · rw [if_neg hfit] at h
      exact ih size align s e h

/-- C5 is refuted on the code: with free VROM `[0,100)`, a fixed 1-byte file
at `[0,1)` and a movable 16-byte file, `realloc_vrom` assigns the movable
file VROM start 1, which is not a multiple of the default alignment 16 — the
code allocates from the raw range start, with no `align` parameter anywhere
(`# FIXME handle alignment somewhere`). The spec-modelled `alloc(size,
align)` of §4.1 returns 16 at the same input, and every address it returns is
a multiple of `align`. -/
theorem realloc_vrom_unaligned :
    realloc_vrom [] 100 [⟨List.replicate 16 4, ⟨40, 56, 8, 0, some [109]⟩⟩]
      [⟨[3], ⟨0, 1, 0, 0, some [102]⟩⟩, ⟨List.replicate 16 4, ⟨40, 56, 8, 0, some [109]⟩⟩] =
      some ([⟨List.replicate 16 4, ⟨1, 17, 8, 0, some [109]⟩⟩], [(17, 100)]) ∧
    ¬ ((16 : Int) ∣ (1 : Int)) ∧
    allocAligned [(1, 100)] 16 16 = some (16, 32) ∧ (16 : Int) ∣ (16 : Int) :=
  ⟨by rfl, by decide, by rfl, allocAligned_dvd [(1, 100)] 16 16 16 32 (by rfl)⟩

end PyRT
